import Mathlib

/-
Formal model of the lpkit Langmuir-probe signal-processing pipeline
(src/lpkit/langmuir.py), shallowly embedded over rational numbers.
Samples are modelled as List Rat; numpy boolean masks as List Bool;
Python exceptions (IndexError, ValueError from numpy/scipy) as Option
results.  Each definition is a direct transcription of the function of
the same name in langmuir.py, together with the scipy routines it calls
(butter, filtfilt, find_peaks, digitize, linspace, median,
gaussian_filter1d), whose control flow is reproduced from scipy.
Transcendental constants that cannot live in Rat (the Butterworth tap
values, the Gaussian kernel weights) are replaced by rational surrogates
of the exact same array shapes; every theorem below depends only on
those shapes and on the control flow, never on the surrogate values.
-/

set_option maxRecDepth 4000

namespace Lpkit

/-- Apply a numpy boolean mask to a list: keeps entries whose mask bit is
true (model of arr[mask]). -/
def maskFilter {α : Type} (mask : List Bool) (xs : List α) : List α :=
  ((mask.zip xs).filter (fun q => q.1)).map (fun q => q.2)

/-- Write one position of a boolean list (model of keep[k] = False). -/
def listSet : List Bool → ℕ → Bool → List Bool
  | [], _, _ => []
  | _ :: bs, 0, v => v :: bs
  | b :: bs, k + 1, v => b :: listSet bs k v

/-- Model of time = np.arange(n) * (1 / fs). -/
def time_base (n : ℕ) (fs : ℚ) : List ℚ :=
  (List.range n).map fun (k : ℕ) => (k : ℚ) * (1 / fs)

/-- The two co-indexed columns of the input DataFrame (df["V"], df["I"]). -/
structure LPFrame where
  V : List ℚ
  I : List ℚ
  deriving DecidableEq, Inhabited

/-- Recognized keyword arguments of process_lp_data; a missing field means
the keyword was not supplied, so the kws.get default applies. -/
structure Kws where
  window : Option (ℚ × ℚ) := none
  peak_height : Option ℚ := none
  peak_distance : Option ℚ := none
  deriving DecidableEq, Inhabited

/-- The processed-trace record returned by process_lp_data. -/
structure ProcessedTrace where
  time : List ℚ
  voltage : List ℚ
  current : List ℚ
  voltage_filtered : List ℚ
  current_filtered : List ℚ
  peaks : List ℕ
  mask : List Bool
  time_offset : ℚ
  deriving DecidableEq, Inhabited

/-! ### Digital filter: scipy.signal.butter / filtfilt -/

/-- Shape model of the coefficient arrays returned by
scipy.signal.butter(order, wn, btype="low"): a numerator and a
denominator of order + 1 taps each.  The true Butterworth tap values are
transcendental (they involve cosines of the pre-warped cutoff) and so
have no exact image in Rat; the model keeps the exact array lengths,
which is all the pipeline claims depend on, and uses pass-through taps
(b = a = [1, 0, ..., 0]) so that the modelled pipeline stays
nondegenerate on concrete inputs. -/
def butterCoeffs (order : ℕ) : List ℚ × List ℚ :=
  (1 :: List.replicate order 0, 1 :: List.replicate order 0)

/-- Model of scipy.signal.butter for a digital low-pass design: the
normalized cutoff must lie strictly between 0 and 1, otherwise scipy
raises ValueError (modelled as none). -/
def butter (order : ℕ) (wn : ℚ) : Option (List ℚ × List ℚ) :=
  if 0 < wn ∧ wn < 1 then some (butterCoeffs order) else none

/-- One step of the direct-form-II-transposed difference equation used by
scipy.signal.lfilter: given the state z and input sample xn, produce the
output sample and the next state. -/
def lfilterStep (b a : List ℚ) (m : ℕ) (z : List ℚ) (xn : ℚ) : ℚ × List ℚ :=
  let yn := b.getD 0 0 * xn + z.getD 0 0
  (yn, (List.range m).map fun i =>
    b.getD (i + 1) 0 * xn + z.getD (i + 1) 0 - a.getD (i + 1) 0 * yn)

/-- Model of scipy.signal.lfilter along one axis: coefficients normalized
by a[0], then the difference equation folded over the input (initial
state modelled as zeros; filtfilt seeds the state with the steady-state
response scaled by the edge sample, a value-level refinement that does
not change any output length). -/
def lfilter (b a x : List ℚ) : List ℚ :=
  let a0 := a.getD 0 1
  let bn := b.map (· / a0)
  let an := a.map (· / a0)
  let m := max a.length b.length - 1
  (x.foldl
    (fun acc xn =>
      let s := lfilterStep bn an m acc.2 xn
      (acc.1 ++ [s.1], s.2))
    (([] : List ℚ), List.replicate m (0 : ℚ))).1

/-- Model of scipy.signal._arraytools.odd_ext: extend a signal by n
samples on each side by odd reflection about the edge values. -/
def odd_ext (x : List ℚ) (n : ℕ) : List ℚ :=
  let left := (((x.drop 1).take n).reverse).map fun v => 2 * x.getD 0 0 - v
  let xr := x.reverse
  let right := ((xr.drop 1).take n).map fun v => 2 * xr.getD 0 0 - v
  left ++ x ++ right

/-- Model of scipy.signal.filtfilt with the default padtype="odd" and
padlen=None: the signal is odd-extended by 3 * max(len(a), len(b))
samples on each side, filtered forward then backward, and the extension
is sliced away; scipy raises ValueError (none) when the input is not
longer than the pad. -/
def filtfilt (b a x : List ℚ) : Option (List ℚ) :=
  let edge := 3 * max a.length b.length
  if x.length ≤ edge then none
  else
    let ext := odd_ext x edge
    let y := lfilter b a ext
    let z := (lfilter b a y.reverse).reverse
    some ((z.drop edge).take (z.length - 2 * edge))

/-- Model of lowpass_filter in langmuir.py: normalized cutoff
cutoff_freq / (0.5 * fs), Butterworth design, zero-phase application. -/
def lowpass_filter (data : List ℚ) (cutoff_freq fs : ℚ) (order : ℕ := 4) :
    Option (List ℚ) :=
  let nyquist := (1 / 2 : ℚ) * fs
  let normal_cutoff := cutoff_freq / nyquist
  match butter order normal_cutoff with
  | none => none
  | some ba => filtfilt ba.1 ba.2 data

/-! ### Peak detector: scipy.signal.find_peaks -/

/-- Inner while-loop of scipy _local_maxima_1d: starting from j, advance
while j < iMax and x[j] equals the candidate plateau value v.  The fuel
argument is an upper bound on the remaining iterations (the loop raises
j by one each turn and stops at iMax, so any fuel at least iMax - j is
enough); it exists only to make the recursion structural. -/
def plateauEnd (x : List ℚ) (iMax : ℕ) (v : ℚ) : ℕ → ℕ → ℕ
  | 0, j => j
  | fuel + 1, j =>
    if j < iMax ∧ x.getD j 0 = v then plateauEnd x iMax v fuel (j + 1) else j

/-- Main loop of scipy _local_maxima_1d: scan i from 1 to iMax - 1; on a
strict rise followed by a (possibly flat) strict fall, record the plateau
midpoint and jump past the plateau.  fuel bounds the iteration count as
in plateauEnd. -/
def localMaximaAux (x : List ℚ) (iMax : ℕ) : ℕ → ℕ → List ℕ
  | 0, _ => []
  | fuel + 1, i =>
    if i < iMax then
      if x.getD (i - 1) 0 < x.getD i 0 then
        let iAhead := plateauEnd x iMax (x.getD i 0) iMax (i + 1)
        if x.getD iAhead 0 < x.getD i 0 then
          (i + (iAhead - 1)) / 2 :: localMaximaAux x iMax fuel (iAhead + 1)
        else localMaximaAux x iMax fuel (i + 1)
      else localMaximaAux x iMax fuel (i + 1)
    else []

/-- Model of scipy _local_maxima_1d: midpoints of the strict local maxima
of x, interior samples only. -/
def localMaxima (x : List ℚ) : List ℕ :=
  localMaximaAux x (x.length - 1) x.length 1

/-- Stable argsort of a rational list (model of np.argsort on the peak
priorities; numpy leaves the order of equal keys unspecified, and none of
the theorems below depend on the choice among ties). -/
def argsort (l : List ℚ) : List ℕ :=
  List.insertionSort (fun i j => l.getD i 0 ≤ l.getD j 0) (List.range l.length)

/-- Left-clearing while-loop of scipy _select_by_peak_distance: walk k
down from j - 1, clearing keep[k] while peaks[j] - peaks[k] < distance.
The second list argument is the current keep array; the trailing ℕ is
k + 1, so 0 encodes the loop guard k < 0. -/
def clearLeft (peaks : List ℕ) (dist : ℤ) (pj : ℕ) : List Bool → ℕ → List Bool
  | keep, 0 => keep
  | keep, k + 1 =>
    if (pj : ℤ) - (peaks.getD k 0 : ℤ) < dist then
      clearLeft peaks dist pj (listSet keep k false) k
    else keep

/-- Right-clearing while-loop of scipy _select_by_peak_distance: walk k up
from j + 1, clearing keep[k] while peaks[k] - peaks[j] < distance; fuel
bounds the iteration count. -/
def clearRight (peaks : List ℕ) (dist : ℤ) (pj : ℕ) :
    List Bool → ℕ → ℕ → List Bool
  | keep, _, 0 => keep
  | keep, k, fuel + 1 =>
    if k < peaks.length ∧ (peaks.getD k 0 : ℤ) - (pj : ℤ) < dist then
      clearRight peaks dist pj (listSet keep k false) (k + 1) fuel
    else keep

/-- Model of scipy _select_by_peak_distance: process peaks from highest
priority to lowest, and for each survivor clear every unprocessed peak
closer than ceil(distance) on either side. -/
def selectByPeakDistance (peaks : List ℕ) (priority : List ℚ)
    (distance : ℚ) : List Bool :=
  let n := peaks.length
  let dist : ℤ := Int.ceil distance
  let order := argsort priority
  order.reverse.foldl
    (fun keep j =>
      if keep.getD j false then
        clearRight peaks dist (peaks.getD j 0)
          (clearLeft peaks dist (peaks.getD j 0) keep j) (j + 1) n
      else keep)
    (List.replicate n true)

/-- Model of scipy.signal.find_peaks with the height and distance
conditions used by langmuir.py: local maxima, filtered by minimum height,
then pruned by minimum separation; scipy raises ValueError (none) when
distance < 1. -/
def find_peaks (x : List ℚ) (height distance : ℚ) : Option (List ℕ) :=
  if distance < 1 then none
  else
    let midpoints := localMaxima x
    let peaks1 := midpoints.filter fun p => height ≤ x.getD p 0
    let keep := selectByPeakDistance peaks1 (peaks1.map fun p => x.getD p 0)
      distance
    some (maskFilter keep peaks1)

/-- Model of find_voltage_peaks in langmuir.py. -/
def find_voltage_peaks (y : List ℚ) (height : ℚ := 1/10)
    (distance : ℚ := 150000) : Option (List ℕ) :=
  find_peaks y height distance

/-! ### Window/mask builder and preprocessing pipeline (process_lp_data) -/

/-- Boolean window of one peak: (time >= time[peak] - time_offset) and
(time <= time[peak]).  Peak indices produced by the pipeline are always
in bounds (they come from localMaxima); getD mirrors time[peak_idx] on
that domain. -/
def peakWindow (time : List ℚ) (off : ℚ) (p : ℕ) : List Bool :=
  time.map fun t => decide (time.getD p 0 - off ≤ t ∧ t ≤ time.getD p 0)

/-- Model of the mask loop of process_lp_data: start from all-false and
OR in the window of each peak. -/
def buildMask (time : List ℚ) (peaks : List ℕ) (off : ℚ) : List Bool :=
  peaks.foldl (fun m p => List.zipWith (· || ·) m (peakWindow time off p))
    (time.map fun _ => false)

/-- The crop window actually used: the supplied kws window, or
[time[0], time[-1]] by default (IndexError, hence none, on an empty
trace when no window is supplied). -/
def window_of (kws : Kws) (time : List ℚ) : Option (ℚ × ℚ) :=
  match kws.window with
  | some w => some w
  | none =>
    match time.head?, time.getLast? with
    | some a, some b => some (a, b)
    | _, _ => none

/-- The crop mask (time > window[0]) and (time < window[1]). -/
def cropMask (time : List ℚ) (w : ℚ × ℚ) : List Bool :=
  time.map fun t => decide (w.1 < t ∧ t < w.2)

/-- Model of process_lp_data in langmuir.py.  The fs parameter is kept in
the signature exactly as in the source, where it is overwritten by
1 / metadata["HResolution"][0] before any use.  The length guard models
the numpy failure when the current column cannot be indexed by a mask
built from the voltage column. -/
def process_lp_data (df : LPFrame) (metadata_hres : ℚ)
    (cutoff : ℚ := 10000) (fs : ℚ := 1000000)
    (time_offset : ℚ := 33/100) (kws : Kws := {}) : Option ProcessedTrace :=
  let voltage := df.V
  let current := df.I
  if current.length = voltage.length then
    let fs2 := 1 / metadata_hres
    let time := time_base voltage.length fs2
    match window_of kws time with
    | none => none
    | some w =>
      let cm := cropMask time w
      let voltage2 := maskFilter cm voltage
      let current2 := maskFilter cm current
      let time2 := maskFilter cm time
      match lowpass_filter voltage2 cutoff fs2,
            lowpass_filter current2 cutoff fs2 with
      | some voltage_filtered, some current_filtered =>
        let peak_height := kws.peak_height.getD (1/10)
        let peak_distance := kws.peak_distance.getD 1 * fs2
        match find_voltage_peaks (voltage_filtered.map Neg.neg) peak_height
              peak_distance with
        | none => none
        | some peaks0 =>
          let peaks := (peaks0.drop 1).dropLast
          some { time := time2, voltage := voltage2, current := current2,
                 voltage_filtered := voltage_filtered,
                 current_filtered := current_filtered,
                 peaks := peaks,
                 mask := buildMask time2 peaks time_offset,
                 time_offset := time_offset }
      | _, _ => none
  else none

/-! ### Segment extractor (make_segments) -/

/-- Per-peak selector of make_segments:
mask and (time >= time[p] - time_offset) and (time <= time[p]). -/
def segSelector (d : ProcessedTrace) (p : ℕ) : List Bool :=
  List.zipWith (· && ·) d.mask (peakWindow d.time d.time_offset p)

/-- Raw (un-truncated) masked voltage window of one peak. -/
def rawVoltageSegment (d : ProcessedTrace) (p : ℕ) : List ℚ :=
  maskFilter (segSelector d p) d.voltage_filtered

/-- Raw (un-truncated) masked current window of one peak. -/
def rawCurrentSegment (d : ProcessedTrace) (p : ℕ) : List ℚ :=
  maskFilter (segSelector d p) d.current_filtered

/-- Model of make_segments in langmuir.py: one masked window per peak,
each truncated to the minimum window length.  The result pairs the
current rows (segments[0]) with the voltage rows (segments[1]).  none
models the Python failures: min() over an empty sequence when there are
no peaks, IndexError on an out-of-range peak index, and the numpy length
mismatch when the mask does not fit the arrays. -/
def make_segments (data : ProcessedTrace) :
    Option (List (List ℚ) × List (List ℚ)) :=
  if data.peaks.all (fun p => p < data.time.length) ∧
      data.mask.length = data.time.length ∧
      data.voltage_filtered.length = data.time.length ∧
      data.current_filtered.length = data.time.length then
    let voltage_segments := data.peaks.map (rawVoltageSegment data)
    let current_segments := data.peaks.map (rawCurrentSegment data)
    match (voltage_segments.map List.length).min? with
    | none => none
    | some min_length =>
      some (current_segments.map (List.take min_length),
            voltage_segments.map (List.take min_length))
  else none

/-! ### Robust averager (average_segments) -/

/-- Model of np.linspace with endpoint=True. -/
def np_linspace (start stop : ℚ) (num : ℕ) : List ℚ :=
  if num = 0 then []
  else if num = 1 then [start]
  else (List.range num).map fun (k : ℕ) =>
    start + (k : ℚ) * ((stop - start) / ((num : ℚ) - 1))

/-- Model of np.digitize(x, bins) with right=False on monotonically
non-decreasing bins: the number of bin edges not exceeding x, so that
bins[i-1] <= x < bins[i]. -/
def np_digitize (x : ℚ) (bins : List ℚ) : ℕ :=
  bins.countP fun b => decide (b ≤ x)

/-- Model of np.median on a non-empty list: middle element of the sorted
list, or the mean of the two middle elements. -/
def np_median (l : List ℚ) : ℚ :=
  let s := List.insertionSort (· ≤ ·) l
  if l.length % 2 = 1 then s.getD (l.length / 2) 0
  else (s.getD (l.length / 2 - 1) 0 + s.getD (l.length / 2) 0) / 2

/-- The per-bin median loop of average_segments: for each i in
range(1, len(bins)), the median of the currents whose bin index is i, or
none (NaN) for an empty bin. -/
def binnedMedians (bins : List ℚ) (Vs Is : List ℚ) : List (Option ℚ) :=
  let binIdx := Vs.map (fun v => np_digitize v bins)
  (List.range' 1 (bins.length - 1)).map fun i =>
    let sel := maskFilter (binIdx.map fun bi => decide (bi = i)) Is
    if sel.isEmpty then none else some (np_median sel)

/-- Index folding of the scipy mode="reflect" boundary
(d c b a | a b c d | d c b a), total with period 2n. -/
def reflectIndex (n : ℕ) (j : ℤ) : ℕ :=
  if n = 0 then 0
  else
    let m := (j.emod (2 * n)).toNat
    if m < n then m else 2 * n - 1 - m

/-- Shape model of scipy.ndimage.gaussian_filter1d (truncate=4.0) on a
sequence with NaN holes (none entries).  The kernel radius is
lw = int(4 * sigma + 0.5), Python int truncating toward zero; scipy
raises ValueError when lw is negative (sigma <= -1/8 at this truncate),
and _gaussian_kernel1d raises ZeroDivisionError at sigma = 0 (the scalar
division -0.5 / sigma**2); both failures are modelled as none.  On
success the output has the length of the input, with reflect boundary;
a window that touches a NaN yields NaN, as NaN contaminates every float
dot product it enters.  The true Gaussian weights are transcendental, so
the combination of a clean window is modelled by its plain average; no
theorem depends on the smoothed values. -/
def gaussian_filter1d (l : List (Option ℚ)) (sigma : ℚ) :
    Option (List (Option ℚ)) :=
  let t : ℚ := 4 * sigma + 1/2
  let lw : ℤ := if 0 ≤ t then Int.floor t else Int.ceil t
  if lw < 0 then none
  else if sigma = 0 then none
  else
    let n := l.length
    let r := lw.toNat
    some ((List.range n).map fun (i : ℕ) =>
      let window := (List.range (2 * r + 1)).map fun (k : ℕ) =>
        l.getD (reflectIndex n ((i : ℤ) + (k : ℤ) - (r : ℤ))) none
      if window.all Option.isSome then
        some ((window.filterMap id).sum / (2 * (r : ℚ) + 1))
      else none)

/-- Model of average_segments in langmuir.py: pool the (negated-current,
voltage) samples of all segments, sort by voltage, bin the voltage range
into num_bins edges, take per-bin current medians (none = NaN for an
empty bin) and smooth them; none models the numpy min()/max() failure on
an empty pooled array. -/
def average_segments (segments : List (List ℚ) × List (List ℚ))
    (num_bins : ℕ := 1000) (sigma : ℚ := 2) :
    Option (List ℚ × List (Option ℚ)) :=
  let V_all := segments.2.flatten
  let I_all := (segments.1.map (List.map Neg.neg)).flatten
  let sorted_indices := argsort V_all
  let V_sorted := sorted_indices.map fun i => V_all.getD i 0
  let I_sorted := sorted_indices.map fun i => I_all.getD i 0
  match V_sorted.min?, V_sorted.max? with
  | some vmin, some vmax =>
    let bins := np_linspace vmin vmax num_bins
    let I_binned := binnedMedians bins V_sorted I_sorted
    let V_binned := List.zipWith (fun a b => (a + b) / 2) bins.dropLast
      bins.tail
    (gaussian_filter1d I_binned sigma).map fun I_smooth =>
      (V_binned, I_smooth)
  | _, _ => none

/-! ### Concrete instances used by witnesses and counterexamples -/

/-- A twenty-sample frame whose voltage dips six times; with
HResolution = 1 the defaults put one detected dip every three samples. -/
def df0 : LPFrame :=
  { V := [9, 2, -1, 2, 2, -1, 2, 2, -1, 2, 2, -1, 2, 2, -1, 2, 2, -1, 2, 9],
    I := List.replicate 20 1 }

/-- The trace produced from df0 with HResolution 1, cutoff 1/4 and
time_offset 2. -/
def demoResult : ProcessedTrace :=
  (process_lp_data df0 1 (1/4) 1 2 {}).getD default

/-- A twenty-sample monotone ramp: no voltage dips, hence no peaks. -/
def df1 : LPFrame :=
  { V := (List.range 20).map (fun (k : ℕ) => (k : ℚ)), I := List.replicate 20 1 }

/-- The trace produced from df1, which has an empty peaks field. -/
def df1Result : ProcessedTrace :=
  (process_lp_data df1 1 (1/4) 1 2 {}).getD default

/-- A one-sample trace whose single peak window is disabled by an
all-false mask, so its masked window selects zero samples. -/
def d3 : ProcessedTrace :=
  { time := [0], voltage := [1], current := [1], voltage_filtered := [1],
    current_filtered := [1], peaks := [0], mask := [false], time_offset := 1 }

/-- A three-sample trace with two overlapping peak windows of two samples
each. -/
def d4 : ProcessedTrace :=
  { time := [0, 1, 2], voltage := [5, 6, 7], current := [8, 9, 10],
    voltage_filtered := [5, 6, 7], current_filtered := [8, 9, 10],
    peaks := [1, 2], mask := [true, true, true], time_offset := 1 }

/-- A two-segment collection with four pooled samples. -/
def segA : List (List ℚ) × List (List ℚ) :=
  ([[1, 2], [3, 4]], [[0, 1], [2, 5]])

/-! ### General list lemmas -/

theorem getD_map_lt {α β : Type} (f : α → β) (l : List α) (i : ℕ)
    (hi : i < l.length) (d : β) (e : α) :
    (l.map f).getD i d = f (l.getD i e) := by
  induction l generalizing i with
  | nil => simp at hi
  | cons a l ih =>
    cases i with
    | zero => simp
    | succ i =>
      rw [List.map_cons, List.getD_cons_succ, List.getD_cons_succ]
      exact ih i (by simpa using hi)

theorem getD_map_const_false {α : Type} (l : List α) (i : ℕ) :
    (l.map fun _ => false).getD i false = false := by
  induction l generalizing i with
  | nil => simp
  | cons a l ih => cases i with
    | zero => simp
    | succ i => rw [List.map_cons, List.getD_cons_succ]; exact ih i

theorem maskFilter_nil {α : Type} (xs : List α) : maskFilter [] xs = [] := by
  simp [maskFilter]

theorem maskFilter_cons_true {α : Type} (m : List Bool) (x : α) (xs : List α) :
    maskFilter (true :: m) (x :: xs) = x :: maskFilter m xs := by
  simp [maskFilter]

theorem maskFilter_cons_false {α : Type} (m : List Bool) (x : α)
    (xs : List α) : maskFilter (false :: m) (x :: xs) = maskFilter m xs := by
  simp [maskFilter]

theorem maskFilter_length_congr {α β : Type} (m : List Bool) :
    ∀ (xs : List α) (ys : List β), xs.length = ys.length →
      (maskFilter m xs).length = (maskFilter m ys).length := by
  induction m with
  | nil => intro xs ys _; simp [maskFilter]
  | cons b m ih =>
    intro xs ys h
    cases xs with
    | nil => cases ys with
      | nil => rfl
      | cons y ys => simp at h
    | cons x xs => cases ys with
      | nil => simp at h
      | cons y ys =>
        cases b with
        | true =>
          rw [maskFilter_cons_true, maskFilter_cons_true]
          simpa using ih xs ys (by simpa using h)
        | false =>
          rw [maskFilter_cons_false, maskFilter_cons_false]
          exact ih xs ys (by simpa using h)

/-! ### Filter length preservation (claim C9) -/

theorem lfilter_fold_length (bn an : List ℚ) (m : ℕ) :
    ∀ (x : List ℚ) (acc : List ℚ × List ℚ),
      ((x.foldl
        (fun acc xn =>
          let s := lfilterStep bn an m acc.2 xn
          (acc.1 ++ [s.1], s.2)) acc).1).length = acc.1.length + x.length := by
  intro x
  induction x with
  | nil => intro acc; simp
  | cons xn xs ih =>
    intro acc
    simp only [List.foldl_cons]
    rw [ih]
    simp
    omega

theorem lfilter_length (b a x : List ℚ) : (lfilter b a x).length = x.length := by
  simp only [lfilter]
  rw [lfilter_fold_length]
  simp

theorem odd_ext_length (x : List ℚ) (n : ℕ) (h : n < x.length) :
    (odd_ext x n).length = x.length + 2 * n := by
  simp only [odd_ext]
  simp [List.length_append, List.length_take, List.length_drop]
  omega

theorem filtfilt_length (b a x : List ℚ)
    (h : 3 * max a.length b.length < x.length) :
    ∃ y, filtfilt b a x = some y ∧ y.length = x.length := by
  simp only [filtfilt]
  rw [if_neg (by omega)]
  refine ⟨_, rfl, ?_⟩
  have hz : ((lfilter b a
      ((lfilter b a (odd_ext x (3 * max a.length b.length))).reverse)).reverse).length
      = x.length + 2 * (3 * max a.length b.length) := by
    rw [List.length_reverse, lfilter_length, List.length_reverse, lfilter_length,
      odd_ext_length x _ h]
  rw [List.length_take, List.length_drop, hz]
  omega

/-- C9 (amended): lowpass_filter preserves the signal length whenever the
normalized cutoff is valid and the signal is longer than the filtfilt pad
of 3 * (order + 1) = 15 samples; on shorter signals scipy filtfilt raises
ValueError instead of returning a signal. -/
theorem lowpass_filter_length (data : List ℚ) (cutoff fs : ℚ)
    (h0 : 0 < cutoff / ((1 / 2 : ℚ) * fs)) (h1 : cutoff / ((1 / 2 : ℚ) * fs) < 1)
    (hlen : 15 < data.length) :
    (lowpass_filter data cutoff fs).map List.length = some data.length := by
  simp only [lowpass_filter, butter]
  rw [if_pos ⟨h0, h1⟩]
  show (filtfilt (butterCoeffs 4).1 (butterCoeffs 4).2 data).map List.length
    = some data.length
  obtain ⟨y, hy, hylen⟩ := filtfilt_length (butterCoeffs 4).1 (butterCoeffs 4).2
    data (by simpa [butterCoeffs] using hlen)
  rw [hy]
  simpa using hylen

/-- C9 (counterexample): on a ten-sample signal with a perfectly valid
normalized cutoff of 1/2, lowpass_filter does not return a same-length
signal: scipy.signal.filtfilt rejects any input not longer than its
fifteen-sample pad, so the call fails. -/
theorem lowpass_filter_short_input_fails :
    (0 : ℚ) < (1/4) / ((1/2 : ℚ) * 1) ∧ ((1/4) / ((1/2 : ℚ) * 1) : ℚ) < 1 ∧
    lowpass_filter (List.replicate 10 0) (1/4) 1 = none := by
  refine ⟨by norm_num, by norm_num, by with_unfolding_all decide⟩

/-- C9 (witness): a sixteen-sample signal clears the pad and comes back
with its length intact. -/
theorem lowpass_filter_length_witness :
    15 < (List.replicate 16 (0 : ℚ)).length ∧
    (lowpass_filter (List.replicate 16 (0 : ℚ)) (1/4) 1).map List.length
      = some 16 := by
  refine ⟨by simp, ?_⟩
  have := lowpass_filter_length (List.replicate 16 (0 : ℚ)) (1/4) 1
    (by norm_num) (by norm_num) (by simp)
  simpa using this

/-- C10: the fs argument of process_lp_data is dead: the sample rate is
recomputed from the metadata HResolution entry before any use, so two
calls that differ only in fs return identical results. -/
theorem process_lp_data_ignores_fs (df : LPFrame) (metadata_hres : ℚ)
    (cutoff fs fs' time_offset : ℚ) (kws : Kws) :
    process_lp_data df metadata_hres cutoff fs time_offset kws =
      process_lp_data df metadata_hres cutoff fs' time_offset kws := rfl

/-! ### Mask characterization (claim C1) -/

theorem zipWith_or_getD (as bs : List Bool) (h : as.length = bs.length)
    (i : ℕ) :
    (List.zipWith (· || ·) as bs).getD i false =
      (as.getD i false || bs.getD i false) := by
  induction as generalizing bs i with
  | nil =>
    cases bs with
    | nil => simp
    | cons b bs => simp at h
  | cons a as ih =>
    cases bs with
    | nil => simp at h
    | cons b bs =>
      cases i with
      | zero => simp
      | succ i => simpa using ih bs (by simpa using h) i

theorem peakWindow_length (time : List ℚ) (off : ℚ) (p : ℕ) :
    (peakWindow time off p).length = time.length := by
  simp [peakWindow]

theorem peakWindow_getD (time : List ℚ) (off : ℚ) (p i : ℕ)
    (hi : i < time.length) :
    (peakWindow time off p).getD i false =
      decide (time.getD p 0 - off ≤ time.getD i 0 ∧
        time.getD i 0 ≤ time.getD p 0) := by
  simp only [peakWindow]
  exact getD_map_lt _ time i hi false 0

theorem buildMask_fold_getD (time : List ℚ) (off : ℚ) (i : ℕ)
    (hi : i < time.length) :
    ∀ (peaks : List ℕ) (m : List Bool), m.length = time.length →
      ((peaks.foldl
        (fun m p => List.zipWith (· || ·) m (peakWindow time off p))
        m).getD i false) =
      (m.getD i false ||
        decide (∃ p ∈ peaks, time.getD p 0 - off ≤ time.getD i 0 ∧
          time.getD i 0 ≤ time.getD p 0)) := by
  intro peaks
  induction peaks with
  | nil => intro m hm; simp
  | cons p ps ih =>
    intro m hm
    simp only [List.foldl_cons]
    rw [ih _ (by simp [List.length_zipWith, peakWindow_length, hm])]
    rw [zipWith_or_getD m _ (by simp [peakWindow_length, hm]) i]
    rw [peakWindow_getD time off p i hi]
    have hiff : (∃ q ∈ p :: ps, time.getD q 0 - off ≤ time.getD i 0 ∧
          time.getD i 0 ≤ time.getD q 0) ↔
        ((time.getD p 0 - off ≤ time.getD i 0 ∧ time.getD i 0 ≤ time.getD p 0)
          ∨ ∃ q ∈ ps, time.getD q 0 - off ≤ time.getD i 0 ∧
            time.getD i 0 ≤ time.getD q 0) := by
      simp
    rw [decide_eq_decide.mpr hiff, Bool.decide_or, Bool.or_assoc]

theorem buildMask_getD_iff (time : List ℚ) (peaks : List ℕ) (off : ℚ)
    (i : ℕ) (hi : i < time.length) :
    ((buildMask time peaks off).getD i false = true) ↔
      ∃ p ∈ peaks, time.getD p 0 - off ≤ time.getD i 0 ∧
        time.getD i 0 ≤ time.getD p 0 := by
  unfold buildMask
  rw [buildMask_fold_getD time off i hi peaks _ (by simp)]
  rw [getD_map_const_false]
  simp

theorem buildMask_length (time : List ℚ) (peaks : List ℕ) (off : ℚ) :
    (buildMask time peaks off).length = time.length := by
  unfold buildMask
  have : ∀ (ps : List ℕ) (m : List Bool), m.length = time.length →
      (ps.foldl (fun m p => List.zipWith (· || ·) m (peakWindow time off p))
        m).length = time.length := by
    intro ps
    induction ps with
    | nil => intro m hm; simpa using hm
    | cons p ps ih =>
      intro m hm
      simp only [List.foldl_cons]
      exact ih _ (by simp [List.length_zipWith, peakWindow_length, hm])
  exact this peaks _ (by simp)

/-! ### Inversion of the preprocessing pipeline -/

theorem process_lp_data_inv {df : LPFrame} {mh cutoff fs off : ℚ}
    {kws : Kws} {r : ProcessedTrace}
    (h : process_lp_data df mh cutoff fs off kws = some r) :
    ∃ w voltage_filtered current_filtered peaks0,
      df.I.length = df.V.length ∧
      window_of kws (time_base df.V.length (1 / mh)) = some w ∧
      lowpass_filter
        (maskFilter (cropMask (time_base df.V.length (1 / mh)) w) df.V)
        cutoff (1 / mh) = some voltage_filtered ∧
      lowpass_filter
        (maskFilter (cropMask (time_base df.V.length (1 / mh)) w) df.I)
        cutoff (1 / mh) = some current_filtered ∧
      find_voltage_peaks (voltage_filtered.map Neg.neg)
        (kws.peak_height.getD (1/10))
        (kws.peak_distance.getD 1 * (1 / mh)) = some peaks0 ∧
      r = { time := maskFilter (cropMask (time_base df.V.length (1 / mh)) w)
              (time_base df.V.length (1 / mh)),
            voltage := maskFilter
              (cropMask (time_base df.V.length (1 / mh)) w) df.V,
            current := maskFilter
              (cropMask (time_base df.V.length (1 / mh)) w) df.I,
            voltage_filtered := voltage_filtered,
            current_filtered := current_filtered,
            peaks := (peaks0.drop 1).dropLast,
            mask := buildMask
              (maskFilter (cropMask (time_base df.V.length (1 / mh)) w)
                (time_base df.V.length (1 / mh)))
              ((peaks0.drop 1).dropLast) off,
            time_offset := off } := by
  simp only [process_lp_data] at h
  split at h
  case isFalse => exact absurd h (by simp)
  case isTrue hlen =>
    split at h
    case h_1 => exact absurd h (by simp)
    case h_2 w hw =>
      split at h
      case h_2 => exact absurd h (by simp)
      case h_1 vf cf hvf hcf =>
        split at h
        case h_1 => exact absurd h (by simp)
        case h_2 pk0 hpk =>
          refine ⟨w, vf, cf, pk0, hlen, hw, hvf, hcf, hpk, ?_⟩
          cases h
          rfl

/-- C1: in every ProcessedTrace produced by process_lp_data, the mask bit
at position i is set exactly when some retained peak p satisfies
time[p] - time_offset <= time[i] <= time[p]; the mask is the union of
these inclusive windows over all peaks, overlap included. -/
theorem process_mask_iff_peak_window {df : LPFrame} {mh cutoff fs off : ℚ}
    {kws : Kws} {r : ProcessedTrace}
    (h : process_lp_data df mh cutoff fs off kws = some r)
    (i : ℕ) (hi : i < r.time.length) :
    (r.mask.getD i false = true) ↔
      ∃ p ∈ r.peaks, r.time.getD p 0 - r.time_offset ≤ r.time.getD i 0 ∧
        r.time.getD i 0 ≤ r.time.getD p 0 := by
  obtain ⟨w, vf, cf, pk0, hlen, hw, hvf, hcf, hpk, rfl⟩ :=
    process_lp_data_inv h
  exact buildMask_getD_iff _ _ _ i hi

/-- C5: the peaks field of every ProcessedTrace produced by
process_lp_data is exactly the detector output on the negated filtered
voltage with its first and last entries removed, nothing else dropped and
nothing reordered. -/
theorem process_peaks_eq_detector_trimmed {df : LPFrame}
    {mh cutoff fs off : ℚ} {kws : Kws} {r : ProcessedTrace}
    (h : process_lp_data df mh cutoff fs off kws = some r) :
    ∃ peaks0, find_voltage_peaks (r.voltage_filtered.map Neg.neg)
        (kws.peak_height.getD (1/10))
        (kws.peak_distance.getD 1 * (1 / mh)) = some peaks0 ∧
      r.peaks = (peaks0.drop 1).dropLast := by
  obtain ⟨w, vf, cf, pk0, hlen, hw, hvf, hcf, hpk, rfl⟩ :=
    process_lp_data_inv h
  exact ⟨pk0, hpk, rfl⟩

/-- C1 (witness): the mask characterization evaluated on the df0
pipeline run at sample index 2. -/
theorem process_mask_iff_peak_window_witness :
    process_lp_data df0 1 (1/4) 1 2 {} = some demoResult ∧
    2 < demoResult.time.length ∧
    ((demoResult.mask.getD 2 false = true) ↔
      ∃ p ∈ demoResult.peaks,
        demoResult.time.getD p 0 - demoResult.time_offset ≤
          demoResult.time.getD 2 0 ∧
        demoResult.time.getD 2 0 ≤ demoResult.time.getD p 0) :=
  ⟨by with_unfolding_all decide, by with_unfolding_all decide,
    @process_mask_iff_peak_window df0 1 (1/4) 1 2 {} demoResult
      (by with_unfolding_all decide) 2 (by with_unfolding_all decide)⟩

/-- C5 (witness): on the df0 pipeline run the detector reports six dips
and the peaks field keeps exactly the middle four. -/
theorem process_peaks_eq_detector_trimmed_witness :
    process_lp_data df0 1 (1/4) 1 2 {} = some demoResult ∧
    (∃ peaks0, find_voltage_peaks (demoResult.voltage_filtered.map Neg.neg)
        (({} : Kws).peak_height.getD (1/10))
        (({} : Kws).peak_distance.getD 1 * (1 / 1)) = some peaks0 ∧
      demoResult.peaks = (peaks0.drop 1).dropLast) :=
  ⟨by with_unfolding_all decide,
    @process_peaks_eq_detector_trimmed df0 1 (1/4) 1 2 {} demoResult
      (by with_unfolding_all decide)⟩

/-! ### Segment extraction (claims C2, C3, C8) -/

theorem min?_isSome_of_ne_nil {α : Type} [Min α] {l : List α} (h : l ≠ []) :
    ∃ m, l.min? = some m := by
  cases hmin : l.min? with
  | none => exact absurd (List.min?_eq_none_iff.mp hmin) h
  | some m => exact ⟨m, rfl⟩

theorem max?_isSome_of_ne_nil {α : Type} [Max α] {l : List α} (h : l ≠ []) :
    ∃ m, l.max? = some m := by
  cases hmax : l.max? with
  | none => exact absurd (List.max?_eq_none_iff.mp hmax) h
  | some m => exact ⟨m, rfl⟩

theorem min?_le_mem {l : List ℕ} {m b : ℕ} (h : l.min? = some m)
    (hb : b ∈ l) : m ≤ b :=
  ((List.le_min?_iff (fun _ _ _ => Nat.le_min) h).mp (Nat.le_refl m)) b hb

/-- C2 (amended): there is no InsufficientPeriods check: when trimming
leaves fewer than two peaks, process_lp_data still returns a
ProcessedTrace; with zero retained peaks the pipeline fails only later,
in make_segments, where the minimum over an empty list of segments is
undefined. -/
theorem process_no_insufficient_periods_check {df : LPFrame}
    {mh cutoff fs off : ℚ} {kws : Kws} {r : ProcessedTrace}
    (h : process_lp_data df mh cutoff fs off kws = some r)
    (hpk : r.peaks = []) : make_segments r = none := by
  unfold make_segments
  rw [hpk]
  split
  · simp
  · rfl

/-- C2 (witness): the monotone ramp df1 yields a trace with an empty
peaks field, and make_segments then fails on it. -/
theorem process_no_insufficient_periods_check_witness :
    process_lp_data df1 1 (1/4) 1 2 {} = some df1Result ∧
    df1Result.peaks = [] ∧ make_segments df1Result = none :=
  ⟨by with_unfolding_all decide, by with_unfolding_all decide,
    @process_no_insufficient_periods_check df1 1 (1/4) 1 2 {} df1Result
      (by with_unfolding_all decide) (by with_unfolding_all decide)⟩

/-- C2 (counterexample): on the monotone ramp df1 the detector finds no
peaks, so fewer than two peaks remain after trimming, and yet
process_lp_data returns a ProcessedTrace instead of failing with any
InsufficientPeriods error. -/
theorem process_returns_trace_with_too_few_peaks :
    (process_lp_data df1 1 (1/4) 1 2 {}).map (fun r => r.peaks) =
      some [] := by
  with_unfolding_all decide

/-- C3: on a well-formed ProcessedTrace with at least one peak,
make_segments returns exactly one current row and one voltage row per
peak, every row truncated to the minimum length of the raw masked
windows. -/
theorem make_segments_uniform_length {d : ProcessedTrace}
    (hb : ∀ p ∈ d.peaks, p < d.time.length)
    (hm : d.mask.length = d.time.length)
    (hv : d.voltage_filtered.length = d.time.length)
    (hc : d.current_filtered.length = d.time.length)
    (hne : d.peaks ≠ []) :
    ∃ m, ((d.peaks.map (rawVoltageSegment d)).map List.length).min? =
        some m ∧
      ∃ ci vi, make_segments d = some (ci, vi) ∧
        ci.length = d.peaks.length ∧ vi.length = d.peaks.length ∧
        (∀ s ∈ ci, s.length = m) ∧ (∀ s ∈ vi, s.length = m) := by
  obtain ⟨m, hmin⟩ := min?_isSome_of_ne_nil
    (l := (d.peaks.map (rawVoltageSegment d)).map List.length)
    (by simp [hne])
  refine ⟨m, hmin, ?_⟩
  have hraw : ∀ p, (rawCurrentSegment d p).length =
      (rawVoltageSegment d p).length := by
    intro p
    exact maskFilter_length_congr (segSelector d p) d.current_filtered
      d.voltage_filtered (hc.trans hv.symm)
  have hcond : (d.peaks.all fun p => decide (p < d.time.length)) = true := by
    simp only [List.all_eq_true, decide_eq_true_eq]
    exact hb
  simp only [make_segments]
  rw [if_pos ⟨hcond, hm, hv, hc⟩, hmin]
  refine ⟨_, _, rfl, by simp, by simp, ?_, ?_⟩
  · intro s hs
    obtain ⟨t, ht, rfl⟩ := List.mem_map.mp hs
    obtain ⟨p, hp, rfl⟩ := List.mem_map.mp ht
    have hle : m ≤ (rawVoltageSegment d p).length :=
      min?_le_mem hmin (by
        exact List.mem_map.mpr ⟨rawVoltageSegment d p,
          List.mem_map.mpr ⟨p, hp, rfl⟩, rfl⟩)
    rw [List.length_take, hraw p]
    omega
  · intro s hs
    obtain ⟨t, ht, rfl⟩ := List.mem_map.mp hs
    obtain ⟨p, hp, rfl⟩ := List.mem_map.mp ht
    have hle : m ≤ (rawVoltageSegment d p).length :=
      min?_le_mem hmin (by
        exact List.mem_map.mpr ⟨rawVoltageSegment d p,
          List.mem_map.mpr ⟨p, hp, rfl⟩, rfl⟩)
    rw [List.length_take]
    omega

/-- C3 (witness): on the trace d4 (two peaks, two-sample windows) both
rows come back with the common minimum length two. -/
theorem make_segments_uniform_length_witness :
    d4.peaks ≠ [] ∧
    ∃ m, ((d4.peaks.map (rawVoltageSegment d4)).map List.length).min? =
        some m ∧
      ∃ ci vi, make_segments d4 = some (ci, vi) ∧
        ci.length = d4.peaks.length ∧ vi.length = d4.peaks.length ∧
        (∀ s ∈ ci, s.length = m) ∧ (∀ s ∈ vi, s.length = m) :=
  ⟨by with_unfolding_all decide,
    @make_segments_uniform_length d4 (by with_unfolding_all decide)
      (by with_unfolding_all decide) (by with_unfolding_all decide)
      (by with_unfolding_all decide) (by with_unfolding_all decide)⟩

/-- C8 (amended): make_segments never fails on an empty masked window;
when some per-peak window selects zero samples the common minimum length
is zero and every returned row is the empty segment. -/
theorem make_segments_empty_window_all_empty {d : ProcessedTrace}
    {p0 : ℕ}
    (hb : ∀ p ∈ d.peaks, p < d.time.length)
    (hm : d.mask.length = d.time.length)
    (hv : d.voltage_filtered.length = d.time.length)
    (hc : d.current_filtered.length = d.time.length)
    (hp0 : p0 ∈ d.peaks) (hz : rawVoltageSegment d p0 = []) :
    ∃ ci vi, make_segments d = some (ci, vi) ∧ ci ≠ [] ∧ vi ≠ [] ∧
      (∀ s ∈ ci, s = []) ∧ (∀ s ∈ vi, s = []) := by
  have hne : d.peaks ≠ [] := by
    intro hcon
    rw [hcon] at hp0
    exact absurd hp0 (List.not_mem_nil p0)
  obtain ⟨m, hmin⟩ := min?_isSome_of_ne_nil
    (l := (d.peaks.map (rawVoltageSegment d)).map List.length)
    (by simp [hne])
  have hm0 : m = 0 := by
    have : m ≤ (rawVoltageSegment d p0).length :=
      min?_le_mem hmin (List.mem_map.mpr ⟨rawVoltageSegment d p0,
        List.mem_map.mpr ⟨p0, hp0, rfl⟩, rfl⟩)
    rw [hz] at this
    simpa using this
  have hcond : (d.peaks.all fun p => decide (p < d.time.length)) = true := by
    simp only [List.all_eq_true, decide_eq_true_eq]
    exact hb
  simp only [make_segments]
  rw [if_pos ⟨hcond, hm, hv, hc⟩, hmin, hm0]
  refine ⟨_, _, rfl, by simp [hne], by simp [hne], ?_, ?_⟩
  · intro s hs
    obtain ⟨t, ht, rfl⟩ := List.mem_map.mp hs
    simp
  · intro s hs
    obtain ⟨t, ht, rfl⟩ := List.mem_map.mp hs
    simp

/-- C8 (witness): the empty-window trace d3 satisfies the amended claim:
its one window selects nothing and make_segments returns nonempty
collections of empty rows. -/
theorem make_segments_empty_window_all_empty_witness :
    (0 ∈ d3.peaks) ∧ rawVoltageSegment d3 0 = [] ∧
    ∃ ci vi, make_segments d3 = some (ci, vi) ∧ ci ≠ [] ∧ vi ≠ [] ∧
      (∀ s ∈ ci, s = []) ∧ (∀ s ∈ vi, s = []) :=
  ⟨by with_unfolding_all decide, by with_unfolding_all decide,
    @make_segments_empty_window_all_empty d3 0 (by with_unfolding_all decide)
      (by with_unfolding_all decide) (by with_unfolding_all decide)
      (by with_unfolding_all decide) (by with_unfolding_all decide)
      (by with_unfolding_all decide)⟩

/-- C8 (counterexample): the trace d3 has a peak whose masked window
selects zero samples, yet make_segments does not fail with any
EmptySegment error: it returns a collection that contains a zero-length
segment. -/
theorem make_segments_returns_zero_length_segment :
    rawVoltageSegment d3 0 = [] ∧
    make_segments d3 = some ([[]], [[]]) := by
  exact ⟨by with_unfolding_all decide, by with_unfolding_all decide⟩

/-! ### Adaptive binning (claim C4) -/

theorem np_linspace_length (a b : ℚ) (n : ℕ) (hn : 2 ≤ n) :
    (np_linspace a b n).length = n := by
  unfold np_linspace
  rw [if_neg (by omega), if_neg (by omega)]
  simp

theorem np_linspace_eq_map (a b : ℚ) (n : ℕ) (hn : 2 ≤ n) :
    np_linspace a b n = (List.range n).map fun (k : ℕ) =>
      a + (k : ℚ) * ((b - a) / ((n : ℚ) - 1)) := by
  unfold np_linspace
  rw [if_neg (by omega), if_neg (by omega)]

theorem np_linspace_last (a b : ℚ) (n : ℕ) (hn : 2 ≤ n) :
    a + ((n : ℚ) - 1) * ((b - a) / ((n : ℚ) - 1)) = b := by
  have hne : ((n : ℚ) - 1) ≠ 0 := by
    have : (2 : ℚ) ≤ (n : ℚ) := by exact_mod_cast hn
    linarith
  field_simp

theorem np_linspace_le_last (a b : ℚ) (n : ℕ) (hn : 2 ≤ n) (hab : a ≤ b)
    (k : ℕ) (hk : k < n) :
    a + (k : ℚ) * ((b - a) / ((n : ℚ) - 1)) ≤ b := by
  have hpos : (0 : ℚ) < (n : ℚ) - 1 := by
    have : (2 : ℚ) ≤ (n : ℚ) := by exact_mod_cast hn
    linarith
  have hs : (0 : ℚ) ≤ (b - a) / ((n : ℚ) - 1) :=
    div_nonneg (by linarith) (le_of_lt hpos)
  have hkle : (k : ℚ) ≤ (n : ℚ) - 1 := by
    have : (k : ℚ) + 1 ≤ (n : ℚ) := by exact_mod_cast hk
    linarith
  have := mul_le_mul_of_nonneg_right hkle hs
  have hlast := np_linspace_last a b n hn
  linarith

/-- C4 (amended): with the num_bins equally spaced edges running from a
to b, every pooled sample with voltage v, a <= v < b, receives one
digitize index in [1, num_bins - 1] and so contributes to exactly one of
the num_bins - 1 bin medians; a sample whose voltage equals the maximum b
receives index num_bins, which the median loop over bins 1 .. num_bins-1
never visits, so it is excluded from every bin. -/
theorem np_digitize_bins (a b : ℚ) (n : ℕ) (hn : 2 ≤ n) (hab : a ≤ b) :
    (∀ v, a ≤ v → v < b →
      1 ≤ np_digitize v (np_linspace a b n) ∧
      np_digitize v (np_linspace a b n) < n) ∧
    np_digitize b (np_linspace a b n) = n := by
  rw [np_linspace_eq_map a b n hn]
  simp only [np_digitize]
  constructor
  · intro v hav hvb
    constructor
    · refine Nat.succ_le_of_lt (List.countP_pos_iff.mpr ⟨a, ?_, by simpa using hav⟩)
      refine List.mem_map.mpr ⟨0, List.mem_range.mpr (by omega), by simp⟩
    · refine Nat.lt_of_le_of_ne (le_trans (List.countP_le_length _) (by simp)) ?_
      intro hcon
      have hall := List.countP_eq_length.mp (by
        rw [hcon]
        simp)
      have hb := hall (a + ((n : ℚ) - 1) * ((b - a) / ((n : ℚ) - 1)))
        (List.mem_map.mpr ⟨n - 1, List.mem_range.mpr (by omega), by
          congr 1
          push_cast [Nat.cast_sub (by omega : 1 ≤ n)]
          ring⟩)
      rw [np_linspace_last a b n hn] at hb
      simp only [decide_eq_true_eq] at hb
      linarith
  · have hall : ∀ x ∈ (List.range n).map fun (k : ℕ) =>
        a + (k : ℚ) * ((b - a) / ((n : ℚ) - 1)), decide (x ≤ b) = true := by
      intro x hx
      obtain ⟨k, hk, rfl⟩ := List.mem_map.mp hx
      simpa using np_linspace_le_last a b n hn hab k (List.mem_range.mp hk)
    rw [List.countP_eq_length.mpr hall]
    simp

/-- C4 (witness): the amended binning statement instantiated on edges
from 0 to 3 with four bins. -/
theorem np_digitize_bins_witness :
    2 ≤ 4 ∧ (0 : ℚ) ≤ 3 ∧
    ((∀ v, (0 : ℚ) ≤ v → v < 3 →
      1 ≤ np_digitize v (np_linspace 0 3 4) ∧
      np_digitize v (np_linspace 0 3 4) < 4) ∧
    np_digitize 3 (np_linspace 0 3 4) = 4) :=
  ⟨by norm_num, by norm_num, np_digitize_bins 0 3 4 (by norm_num) (by norm_num)⟩

/-- C4 (counterexample): pooled samples at voltages 0 and 3 with currents
5 and 7 and four bin edges: the sample at the maximum voltage 3 receives
bin index 4 = num_bins, outside the bins 1..3 visited by the median loop,
so its current 7 reaches no bin median and the last bin is empty (NaN)
instead of containing the maximum sample; running average_segments end to
end at the default sigma = 2 confirms the current 7 appears in no bin
(the NaN bins then contaminate the whole smoothed output). -/
theorem np_digitize_max_sample_excluded :
    np_digitize 3 (np_linspace 0 3 4) = 4 ∧
    binnedMedians (np_linspace 0 3 4) [0, 3] [5, 7] =
      [some 5, none, none] ∧
    average_segments ([[-5, -7]], [[0, 3]]) 4 2 =
      some ([1/2, 3/2, 5/2], [none, none, none]) :=
  ⟨by with_unfolding_all decide, by with_unfolding_all decide,
    by with_unfolding_all decide⟩

/-! ### Robust averager output shape (claim C7) -/

theorem map_getD_range (l : List ℚ) :
    (List.range l.length).map (fun i => l.getD i 0) = l := by
  induction l with
  | nil => simp
  | cons a l ih =>
    rw [List.length_cons, List.range_succ_eq_map]
    simp only [List.map_cons, List.getD_cons_zero, List.map_map]
    have hfun : ((fun i => (a :: l).getD i 0) ∘ Nat.succ) =
        fun i => l.getD i 0 := by
      funext i
      simp [Function.comp]
    rw [hfun, ih]

theorem argsort_perm (l : List ℚ) :
    (argsort l).Perm (List.range l.length) :=
  List.perm_insertionSort _ _

theorem map_argsort_perm (l : List ℚ) :
    ((argsort l).map (fun i => l.getD i 0)).Perm l := by
  have h1 := (argsort_perm l).map (fun i => l.getD i 0)
  rwa [map_getD_range l] at h1

theorem rat_min?_eq_some_iff {l : List ℚ} {a : ℚ} :
    l.min? = some a ↔ a ∈ l ∧ ∀ b ∈ l, a ≤ b :=
  @List.min?_eq_some_iff ℚ a _ _ ⟨fun h h' => le_antisymm h h'⟩
    (fun x => le_refl x) (fun x y => min_choice x y)
    (fun _ _ _ => le_min_iff) l

theorem rat_max?_eq_some_iff {l : List ℚ} {a : ℚ} :
    l.max? = some a ↔ a ∈ l ∧ ∀ b ∈ l, b ≤ a :=
  @List.max?_eq_some_iff ℚ a _ _ ⟨fun h h' => le_antisymm h h'⟩
    (fun x => le_refl x) (fun x y => max_choice x y)
    (fun _ _ _ => max_le_iff) l

theorem min?_eq_of_perm {l l' : List ℚ} (h : l.Perm l') :
    l.min? = l'.min? := by
  cases hm : l.min? with
  | none =>
    rw [List.min?_eq_none_iff] at hm
    subst hm
    rw [List.Perm.eq_nil (List.Perm.symm h)]
    rfl
  | some a =>
    obtain ⟨ha, hall⟩ := rat_min?_eq_some_iff.mp hm
    exact (rat_min?_eq_some_iff.mpr
      ⟨(h.mem_iff).mp ha, fun b hb => hall b ((h.mem_iff).mpr hb)⟩).symm

theorem max?_eq_of_perm {l l' : List ℚ} (h : l.Perm l') :
    l.max? = l'.max? := by
  cases hm : l.max? with
  | none =>
    rw [List.max?_eq_none_iff] at hm
    subst hm
    rw [List.Perm.eq_nil (List.Perm.symm h)]
    rfl
  | some a =>
    obtain ⟨ha, hall⟩ := rat_max?_eq_some_iff.mp hm
    exact (rat_max?_eq_some_iff.mpr
      ⟨(h.mem_iff).mp ha, fun b hb => hall b ((h.mem_iff).mpr hb)⟩).symm

theorem rat_min?_le_max? {l : List ℚ} {a b : ℚ} (hmin : l.min? = some a)
    (hmax : l.max? = some b) : a ≤ b := by
  obtain ⟨ha, _⟩ := rat_min?_eq_some_iff.mp hmin
  obtain ⟨_, hall⟩ := rat_max?_eq_some_iff.mp hmax
  exact hall a ha

theorem zipWith_map_same {α β γ δ : Type} (g : β → γ → δ) (f1 : α → β)
    (f2 : α → γ) (l : List α) :
    List.zipWith g (l.map f1) (l.map f2) = l.map fun x => g (f1 x) (f2 x) := by
  induction l with
  | nil => rfl
  | cons a l ih => simp [ih]

theorem bin_centers_eq_map (a b : ℚ) (n : ℕ) (hn : 2 ≤ n) :
    List.zipWith (fun x y => (x + y) / 2) (np_linspace a b n).dropLast
      (np_linspace a b n).tail =
    (List.range (n - 1)).map fun (k : ℕ) =>
      ((a + (k : ℚ) * ((b - a) / ((n : ℚ) - 1))) +
       (a + ((k : ℚ) + 1) * ((b - a) / ((n : ℚ) - 1)))) / 2 := by
  obtain ⟨m, rfl⟩ : ∃ m, n = m + 1 := ⟨n - 1, by omega⟩
  rw [np_linspace_eq_map a b (m + 1) hn]
  simp only [Nat.add_sub_cancel]
  generalize (b - a) / (((m + 1 : ℕ) : ℚ) - 1) = s
  have hdrop : ((List.range (m + 1)).map fun (k : ℕ) =>
      a + (k : ℚ) * s).dropLast =
      (List.range m).map fun (k : ℕ) => a + (k : ℚ) * s := by
    rw [List.range_succ, List.map_append]
    exact List.dropLast_concat
  have htail : ((List.range (m + 1)).map fun (k : ℕ) =>
      a + (k : ℚ) * s).tail =
      (List.range m).map fun (k : ℕ) => a + ((k : ℚ) + 1) * s := by
    rw [List.range_succ_eq_map]
    simp only [List.map_cons, List.tail_cons, List.map_map]
    refine List.map_congr_left ?_
    intro k _
    simp only [Function.comp]
    push_cast
    ring
  rw [hdrop, htail, zipWith_map_same]

theorem bin_centers_chain_le (a b : ℚ) (n : ℕ) (hab : a ≤ b) :
    List.Chain' (· ≤ ·) (List.zipWith (fun x y => (x + y) / 2)
      (np_linspace a b n).dropLast (np_linspace a b n).tail) := by
  by_cases hn : 2 ≤ n
  case neg =>
    interval_cases n <;> simp [np_linspace]
  case pos =>
    rw [bin_centers_eq_map a b n hn]
    have hpos : (0 : ℚ) < (n : ℚ) - 1 := by
      have : (2 : ℚ) ≤ (n : ℚ) := by exact_mod_cast hn
      linarith
    have hs : (0 : ℚ) ≤ (b - a) / ((n : ℚ) - 1) :=
      div_nonneg (by linarith) (le_of_lt hpos)
    rw [List.chain'_map]
    obtain ⟨m, hm⟩ : ∃ m, n - 1 = m + 1 := ⟨n - 2, by omega⟩
    rw [hm, List.chain'_range_succ]
    intro k _
    push_cast
    set s : ℚ := (b - a) / ((n : ℚ) - 1) with hsdef
    have h1 : ((k : ℚ) + 1) * s = (k : ℚ) * s + s := by ring
    have h2 : ((k : ℚ) + 1 + 1) * s = (k : ℚ) * s + s + s := by ring
    linarith

theorem bin_centers_chain_lt (a b : ℚ) (n : ℕ) (hab : a < b) :
    List.Chain' (· < ·) (List.zipWith (fun x y => (x + y) / 2)
      (np_linspace a b n).dropLast (np_linspace a b n).tail) := by
  by_cases hn : 2 ≤ n
  case neg =>
    interval_cases n <;> simp [np_linspace]
  case pos =>
    rw [bin_centers_eq_map a b n hn]
    have hpos : (0 : ℚ) < (n : ℚ) - 1 := by
      have : (2 : ℚ) ≤ (n : ℚ) := by exact_mod_cast hn
      linarith
    have hs : (0 : ℚ) < (b - a) / ((n : ℚ) - 1) :=
      div_pos (by linarith) hpos
    rw [List.chain'_map]
    obtain ⟨m, hm⟩ : ∃ m, n - 1 = m + 1 := ⟨n - 2, by omega⟩
    rw [hm, List.chain'_range_succ]
    intro k _
    push_cast
    set s : ℚ := (b - a) / ((n : ℚ) - 1) with hsdef
    have h1 : ((k : ℚ) + 1) * s = (k : ℚ) * s + s := by ring
    have h2 : ((k : ℚ) + 1 + 1) * s = (k : ℚ) * s + s + s := by ring
    linarith


theorem gaussian_filter1d_pos (l : List (Option ℚ)) {sigma : ℚ}
    (hs : 0 < sigma) :
    ∃ y, gaussian_filter1d l sigma = some y ∧ y.length = l.length := by
  simp only [gaussian_filter1d]
  rw [if_pos (by linarith : (0 : ℚ) ≤ 4 * sigma + 1/2)]
  rw [if_neg (not_lt.mpr (Int.floor_nonneg.mpr (by linarith)))]
  rw [if_neg (ne_of_gt hs)]
  exact ⟨_, rfl, by simp⟩

theorem binnedMedians_length (bins Vs Is : List ℚ) :
    (binnedMedians bins Vs Is).length = bins.length - 1 := by
  simp [binnedMedians]

/-- C7: on any segments input with a nonempty pooled voltage list, and
for any positive smoothing sigma (the source default is sigma = 2; at
sigma = 0 or sigma <= -1/8 scipy raises inside gaussian_filter1d
instead of returning), average_segments returns a pair of equal-length
sequences whose voltage axis (the bin centers) is monotonically
non-decreasing, and strictly increasing whenever the minimum pooled
voltage is strictly below the maximum pooled voltage. -/
theorem average_segments_shape (segments : List (List ℚ) × List (List ℚ))
    (num_bins : ℕ) (sigma : ℚ) (hsig : 0 < sigma)
    (hne : segments.2.flatten ≠ []) :
    ∃ out, average_segments segments num_bins sigma = some out ∧
      out.1.length = out.2.length ∧
      List.Chain' (· ≤ ·) out.1 ∧
      ∀ va vb, segments.2.flatten.min? = some va →
        segments.2.flatten.max? = some vb → va < vb →
        List.Chain' (· < ·) out.1 := by
  have hperm := map_argsort_perm segments.2.flatten
  have hsne : ((argsort segments.2.flatten).map
      fun i => segments.2.flatten.getD i 0) ≠ [] := by
    intro hcon
    exact hne (List.Perm.eq_nil (List.Perm.symm (hcon ▸ hperm)))
  obtain ⟨vmin0, hvmin0⟩ := min?_isSome_of_ne_nil hsne
  obtain ⟨vmax0, hvmax0⟩ := max?_isSome_of_ne_nil hsne
  simp only [average_segments]
  split
  case h_2 hbad =>
    exact (hbad vmin0 vmax0 hvmin0 hvmax0).elim
  case h_1 vmin vmax hvmin hvmax =>
    obtain ⟨y, hy, hylen⟩ := gaussian_filter1d_pos
      (binnedMedians (np_linspace vmin vmax num_bins)
        ((argsort segments.2.flatten).map
          fun i => segments.2.flatten.getD i 0)
        ((argsort segments.2.flatten).map
          fun i => (segments.1.map (List.map Neg.neg)).flatten.getD i 0))
      hsig
    rw [hy]
    refine ⟨_, rfl, ?_, ?_, ?_⟩
    · rw [List.length_zipWith, List.length_dropLast, List.length_tail,
        hylen, binnedMedians_length]
      omega
    · exact bin_centers_chain_le vmin vmax num_bins
        (rat_min?_le_max? hvmin hvmax)
    · intro va vb hva hvb hlt
      have hva2 : some vmin = some va := by
        rw [← hvmin, min?_eq_of_perm hperm, hva]
      have hvb2 : some vmax = some vb := by
        rw [← hvmax, max?_eq_of_perm hperm, hvb]
      cases hva2
      cases hvb2
      exact bin_centers_chain_lt vmin vmax num_bins hlt

/-- C7 (witness): the shape statement evaluated on a concrete two-segment
collection with pooled voltages 0, 1, 2, 5 at the source default
sigma = 2. -/
theorem average_segments_shape_witness :
    (0 : ℚ) < 2 ∧ segA.2.flatten ≠ [] ∧
    ∃ out, average_segments segA 3 2 = some out ∧
      out.1.length = out.2.length ∧
      List.Chain' (· ≤ ·) out.1 ∧
      ∀ va vb, segA.2.flatten.min? = some va →
        segA.2.flatten.max? = some vb → va < vb →
        List.Chain' (· < ·) out.1 :=
  ⟨by norm_num, by with_unfolding_all decide,
    average_segments_shape segA 3 2 (by norm_num)
      (by with_unfolding_all decide)⟩


/-! ### Default crop window behavior (claim C6) -/

theorem maskFilter_all_but_last {α : Type} :
    ∀ (ys : List α), maskFilter
      ((List.range ys.length).map fun k => decide (k + 1 < ys.length)) ys =
      ys.dropLast := by
  intro ys
  induction ys with
  | nil => simp [maskFilter]
  | cons y ys ih =>
    rw [List.length_cons, List.range_succ_eq_map, List.map_cons, List.map_map]
    cases ys with
    | nil => simp [maskFilter]
    | cons z t =>
      rw [show (decide (0 + 1 < (z :: t).length + 1)) = true from by simp]
      rw [maskFilter_cons_true]
      have hcomp : ((fun k => decide (k + 1 < (z :: t).length + 1)) ∘
          Nat.succ) = fun k => decide (k + 1 < (z :: t).length) := by
        funext k
        simp only [Function.comp]
        exact decide_eq_decide.mpr (by omega)
      rw [hcomp, ih, List.dropLast_cons₂]

theorem maskFilter_interior {α : Type} (ys : List α) :
    maskFilter ((List.range ys.length).map
      fun k => decide (0 < k ∧ k + 1 < ys.length)) ys =
      (ys.drop 1).dropLast := by
  cases ys with
  | nil => simp [maskFilter]
  | cons y ys =>
    rw [List.length_cons, List.range_succ_eq_map, List.map_cons, List.map_map]
    rw [show (decide (0 < 0 ∧ 0 + 1 < ys.length + 1)) = false from by simp]
    rw [maskFilter_cons_false]
    have hcomp : ((fun k => decide (0 < k ∧ k + 1 < ys.length + 1)) ∘
        Nat.succ) = fun k => decide (k + 1 < ys.length) := by
      funext k
      simp only [Function.comp]
      exact decide_eq_decide.mpr (by omega)
    rw [hcomp, maskFilter_all_but_last ys]
    simp

theorem maskFilter_interior_of_length {α : Type} (ys : List α) (m : ℕ)
    (h : ys.length = m) :
    maskFilter ((List.range m).map
      fun k => decide (0 < k ∧ k + 1 < m)) ys =
      (ys.drop 1).dropLast := by
  subst h
  exact maskFilter_interior ys

theorem time_base_length (n : ℕ) (fs2 : ℚ) : (time_base n fs2).length = n := by
  simp [time_base]

theorem window_of_default (kws : Kws) (hwin : kws.window = none) (n : ℕ)
    (hn : 1 ≤ n) (fs2 : ℚ) :
    window_of kws (time_base n fs2) =
      some (((0 : ℕ) : ℚ) * (1 / fs2), ((n - 1 : ℕ) : ℚ) * (1 / fs2)) := by
  unfold window_of time_base
  rw [hwin, List.head?_map, List.head?_range, if_neg (by omega)]
  rw [List.getLast?_eq_getElem?, List.getElem?_map, List.length_map,
    List.length_range, List.getElem?_range (by omega : n - 1 < n)]
  rfl

theorem cropMask_default (n : ℕ) (fs2 : ℚ) (hdt : 0 < 1 / fs2) (hn : 1 ≤ n) :
    cropMask (time_base n fs2)
      (((0 : ℕ) : ℚ) * (1 / fs2), ((n - 1 : ℕ) : ℚ) * (1 / fs2)) =
      (List.range n).map fun k => decide (0 < k ∧ k + 1 < n) := by
  unfold cropMask time_base
  rw [List.map_map]
  refine List.map_congr_left ?_
  intro k hk
  simp only [Function.comp]
  refine decide_eq_decide.mpr ?_
  have h1 : ((0 : ℕ) : ℚ) * (1 / fs2) < (k : ℚ) * (1 / fs2) ↔ 0 < k := by
    rw [mul_lt_mul_right hdt]
    exact_mod_cast Nat.cast_lt (α := ℚ)
  have h2 : (k : ℚ) * (1 / fs2) < ((n - 1 : ℕ) : ℚ) * (1 / fs2) ↔
      k + 1 < n := by
    rw [mul_lt_mul_right hdt, Nat.cast_lt]
    omega
  exact and_congr h1 h2

/-- C6 (amended): the crop is applied even when no window keyword is
supplied: the default window [time[0], time[-1]] with strict comparisons
removes exactly the first and the last sample of the time, voltage and
current traces, and keeps every interior sample. -/
theorem process_default_window_drops_edges {df : LPFrame}
    {mh cutoff fs off : ℚ} {kws : Kws} {r : ProcessedTrace}
    (hwin : kws.window = none) (hmh : 0 < mh)
    (h : process_lp_data df mh cutoff fs off kws = some r) :
    r.time = ((time_base df.V.length (1 / mh)).drop 1).dropLast ∧
    r.voltage = (df.V.drop 1).dropLast ∧
    r.current = (df.I.drop 1).dropLast := by
  obtain ⟨w, vf, cf, pk0, hlen, hw, hvf, hcf, hpk, rfl⟩ :=
    process_lp_data_inv h
  have hn : 1 ≤ df.V.length := by
    by_contra hcon
    have h0 : time_base df.V.length (1 / mh) = [] := by
      have : df.V.length = 0 := by omega
      rw [this]
      rfl
    rw [h0] at hw
    unfold window_of at hw
    rw [hwin] at hw
    simp at hw
  have hdt : 0 < 1 / (1 / mh) := one_div_pos.mpr (one_div_pos.mpr hmh)
  rw [window_of_default kws hwin df.V.length hn (1 / mh)] at hw
  cases hw
  have hcm := cropMask_default df.V.length (1 / mh) hdt hn
  refine ⟨?_, ?_, ?_⟩
  · show maskFilter (cropMask (time_base df.V.length (1 / mh)) _)
      (time_base df.V.length (1 / mh)) = _
    rw [hcm]
    exact maskFilter_interior_of_length (time_base df.V.length (1 / mh))
      df.V.length (time_base_length df.V.length (1 / mh))
  · show maskFilter (cropMask (time_base df.V.length (1 / mh)) _) df.V = _
    rw [hcm]
    exact maskFilter_interior_of_length df.V df.V.length rfl
  · show maskFilter (cropMask (time_base df.V.length (1 / mh)) _) df.I = _
    rw [hcm]
    exact maskFilter_interior_of_length df.I df.V.length hlen

/-- C6 (witness): on df0 (no window keyword, twenty samples) the returned
traces are exactly the eighteen interior samples. -/
theorem process_default_window_drops_edges_witness :
    ({} : Kws).window = none ∧ (0 : ℚ) < 1 ∧
    (demoResult.time = ((time_base df0.V.length (1 / 1)).drop 1).dropLast ∧
     demoResult.voltage = (df0.V.drop 1).dropLast ∧
     demoResult.current = (df0.I.drop 1).dropLast) :=
  ⟨rfl, by norm_num,
    @process_default_window_drops_edges df0 1 (1/4) 1 2 {} demoResult rfl
      (by norm_num) (by with_unfolding_all decide)⟩

/-- C6 (counterexample): df0 has twenty samples and no crop window is
supplied, yet the returned voltage trace has only eighteen samples: the
default window [time[0], time[-1]] is applied with strict comparisons
and removes the first and last samples. -/
theorem process_no_window_still_crops :
    ({} : Kws).window = none ∧ df0.V.length = 20 ∧
    (process_lp_data df0 1 (1/4) 1 2 {}).map (fun r => r.voltage.length) =
      some 18 :=
  ⟨rfl, by with_unfolding_all decide, by with_unfolding_all decide⟩

end Lpkit
